import Mathlib

/-!
# Client Hints accessors (`package ch`, `user_agent_hints.go`)

A shallow embedding of the Go package: Go strings are modelled as lists of
Unicode code points (`List Char`), `http.Header` as a map from the canonical
header name to its list of values, and a run-time panic (index out of range)
as the error side of `Except`.
-/

namespace ch

/-- Go `string`, as the sequence of its code points. -/
abbrev Str := List Char

/-- The double quote character, the cutset of `strings.Trim(_, "\"")`. -/
def dq : Char := Char.ofNat 34

/-! ## Go standard library: `unicode`, `strings` -/

/-- Go `unicode.IsSpace`: the code points with the Unicode White_Space property. -/
def isSpace (c : Char) : Bool :=
  let n := c.toNat
  (0x09 ≤ n && n ≤ 0x0D) || n == 0x20 || n == 0x85 || n == 0xA0 || n == 0x1680 ||
    (0x2000 ≤ n && n ≤ 0x200A) || n == 0x2028 || n == 0x2029 || n == 0x202F ||
    n == 0x205F || n == 0x3000

/-- Go `strings.TrimFunc(s, f)`: all leading and all trailing code points
satisfying `f` are removed. -/
def TrimFunc (s : Str) (f : Char → Bool) : Str :=
  ((s.dropWhile f).reverse.dropWhile f).reverse

/-- Go `strings.TrimSpace`. -/
def TrimSpace (s : Str) : Str := TrimFunc s isSpace

/-- Go `strings.Trim(s, cutset)`: all leading and trailing code points contained
in `cutset` are removed. -/
def Trim (s : Str) (cutset : Str) : Str := TrimFunc s (fun c => cutset.contains c)

/-- Go `strings.Contains(s, substr)`. -/
def Contains : Str → Str → Bool
  | [], substr => substr.isEmpty
  | c :: cs, substr => substr.isPrefixOf (c :: cs) || Contains cs substr

/-- The scan of Go `strings.Split(s, sep)` for a non-empty `sep`: `skip` counts the
code points of an already matched separator that are still to be passed over. -/
def splitGo (sep : Str) : Str → Nat → List Str
  | [], _ => [[]]
  | _ :: cs, skip + 1 => splitGo sep cs skip
  | c :: cs, 0 =>
    if sep.isPrefixOf (c :: cs) then [] :: splitGo sep cs (sep.length - 1)
    else
      match splitGo sep cs 0 with
      | [] => [[c]]
      | p :: ps => (c :: p) :: ps

/-- Go `strings.Split(s, sep)` for a non-empty separator: the pieces of `s` between
the non-overlapping occurrences of `sep`, found from left to right. -/
def Split (s sep : Str) : List Str := splitGo sep s 0

/-! ## `net/http` -/

/-- Go `http.Header` (`map[string][]string`). Keys are header names in canonical
form: `Header.Add`, `Header.Set`, the server's request parser and `Header.Get` all
canonicalise the name before touching the map. A missing key has no values. -/
abbrev Header := String → List Str

/-- Go `Header.Get`: the first value associated with the key, `""` if there is none. -/
def Header.Get (h : Header) (key : String) : Str :=
  match h key with
  | [] => []
  | v :: _ => v

/-! ## `github.com/verify-lab/strutil` -/

/-- Modelled from the spec: `strutil.StripNonPrintable` belongs to an imported package
whose source is not part of this repository. The spec (4.1) says it "removes all
non-printable characters (control characters, etc.) from the input" and "does not alter
printable characters, including internal whitespace". Which code points are printable is
the argument `isPrint`. -/
def StripNonPrintable (isPrint : Char → Bool) (s : Str) : Str := s.filter isPrint

/-- The printable ASCII range `0x20 .. 0x7E`, used to evaluate the accessors on
concrete header values. -/
def isPrintASCII (c : Char) : Bool := 0x20 ≤ c.toNat && c.toNat ≤ 0x7E

/-! ## `package ch` -/

def SecCHUA : String := "Sec-CH-UA"
def SecCHUAArch : String := "Sec-CH-UA-Arch"
def SecCHUABitness : String := "Sec-CH-UA-Bitness"
def SecCHUAMobile : String := "Sec-CH-UA-Mobile"
def SecCHUAModel : String := "Sec-CH-UA-Model"
def SecCHUAPlatform : String := "Sec-CH-UA-Platform"
def SecCHUAPlatformVersion : String := "Sec-CH-UA-Platform-Version"
def SecCHPrefersColorScheme : String := "Sec-CH-Prefers-Color-Scheme"

def headerBoolTrue : Str := "?1".toList

structure Brand where
  Name : Str
  Version : Str
  deriving DecidableEq, Repr

/-- A Go run-time panic. -/
inductive Panic where
  | indexOutOfRange
  deriving DecidableEq, Repr

deriving instance DecidableEq for Except

/-- The function `headerValueToBrand`: `data[0]` always exists, `data[1]` is an index
out of range when `val` has no `;v=`. -/
def headerValueToBrand (isPrint : Char → Bool) (val : Str) : Except Panic Brand :=
  match Split val ";v=".toList with
  | d0 :: d1 :: _ =>
    let d0 := Trim d0 [dq]
    let d0 := StripNonPrintable isPrint d0
    let d0 := TrimSpace d0
    let d1 := Trim d1 [dq]
    let d1 := StripNonPrintable isPrint d1
    let d1 := TrimSpace d1
    .ok { Name := d0, Version := d1 }
  | _ => .error .indexOutOfRange

/-- The loop of `GetBrand` up to its `return headerValueToBrand(val)`: the index of
the iteration that reaches the `return`, with the trimmed token `val` it passes on;
`none` when the loop runs to its end. `total` is `len(data)`, `i` the index of the
first token of the remaining list. -/
def scan (total : Nat) : Nat → List Str → Option (Nat × Str)
  | _, [] => none
  | i, tok :: rest =>
    let val := TrimSpace tok
    if val = [] then scan total (i + 1) rest
    else if Contains val "Not".toList || Contains val "not".toList then
      scan total (i + 1) rest
    else if Contains val "Brand".toList || Contains val "brand".toList then
      scan total (i + 1) rest
    else if (Contains val "Chromium".toList || Contains val "chromium".toList)
        && total > 2 then
      scan total (i + 1) rest
    else some (i, val)

/-- The first two statements of `GetBrand` and its loop: the position in `data` and the
trimmed token `val` with which the loop reaches `return headerValueToBrand(val)`,
`none` when it falls through to `return nil`. -/
def selected (headers : Header) : Option (Nat × Str) :=
  let ua := headers.Get SecCHUA
  let data := Split ua ",".toList
  scan data.length 0 data

/-- The function `GetBrand`; its `nil` result is `none`. -/
def GetBrand (isPrint : Char → Bool) (headers : Header) : Except Panic (Option Brand) :=
  match selected headers with
  | none => .ok none
  | some (_, val) => (headerValueToBrand isPrint val).map some

def GetArch (isPrint : Char → Bool) (headers : Header) : Str :=
  StripNonPrintable isPrint (headers.Get SecCHUAArch)

def GetBitness (isPrint : Char → Bool) (headers : Header) : Str :=
  StripNonPrintable isPrint (headers.Get SecCHUABitness)

def IsMobile (headers : Header) : Bool :=
  headerBoolTrue == headers.Get SecCHUAMobile

def GetModel (isPrint : Char → Bool) (headers : Header) : Str :=
  Trim (StripNonPrintable isPrint (headers.Get SecCHUAModel)) [dq]

def GetPlatform (isPrint : Char → Bool) (headers : Header) : Str :=
  StripNonPrintable isPrint (headers.Get SecCHUAPlatform)

def GetPlatformVersion (isPrint : Char → Bool) (headers : Header) : Str :=
  StripNonPrintable isPrint (headers.Get SecCHUAPlatformVersion)

def GetColorScheme (isPrint : Char → Bool) (headers : Header) : Str :=
  StripNonPrintable isPrint (headers.Get SecCHPrefersColorScheme)

/-- The header set with the single header `key: value`. -/
def single (key : String) (value : Str) : Header :=
  fun k => if k = key then [value] else []

/-! ## Vocabulary of the specification -/

/-- The string `s` neither starts nor ends with a code point satisfying `f`. -/
def NoEdge (f : Char → Bool) (s : Str) : Prop :=
  (∀ c, s.head? = some c → f c = false) ∧ (∀ c, s.getLast? = some c → f c = false)

instance NoEdge.decidable (f : Char → Bool) (s : Str) : Decidable (NoEdge f s) :=
  decidable_of_iff
    (s.head?.all (fun c => !f c) = true ∧ s.getLast?.all (fun c => !f c) = true)
    (by unfold NoEdge; cases s.head? <;> cases s.getLast? <;> simp)

/-- The string `s` contains the word `w` in some letter case. -/
def ContainsAnyCase (s w : Str) : Bool :=
  Contains (s.map Char.toLower) (w.map Char.toLower)

/-- A decoy as the code tests it: one of the spellings `Not`, `not`, `Brand`, `brand`. -/
def isDecoy (tok : Str) : Bool :=
  Contains tok "Not".toList || Contains tok "not".toList ||
    Contains tok "Brand".toList || Contains tok "brand".toList

/-- A decoy in the words of the specification: `not` or `brand` in any letter case. -/
def isDecoyAnyCase (tok : Str) : Bool :=
  ContainsAnyCase tok "not".toList || ContainsAnyCase tok "brand".toList

/-- The engine test of the code: one of the spellings `Chromium`, `chromium`. -/
def hasChromium (tok : Str) : Bool :=
  Contains tok "Chromium".toList || Contains tok "chromium".toList

/-- The engine test in the words of the specification: `chromium` in any letter case. -/
def hasChromiumAnyCase (tok : Str) : Bool := ContainsAnyCase tok "chromium".toList

/-- A name or version of a well-formed entry: printable code points only, no leading
or trailing whitespace or double quote, no `,` and no `;v=`. -/
structure Clean (isPrint : Char → Bool) (s : Str) : Prop where
  printable : ∀ c ∈ s, isPrint c = true
  spaceEdge : NoEdge isSpace s
  quoteEdge : NoEdge (fun c => [dq].contains c) s
  noComma : Contains s ",".toList = false
  noSep : Contains s ";v=".toList = false

/-- The string `s` wrapped in `a` leading and `b` trailing double quotes. -/
def wrapped (a b : Nat) (s : Str) : Str :=
  List.replicate a dq ++ s ++ List.replicate b dq

/-- The entry `name;v=version`, the name in `a` and `b`, the version in `c` and `d`
double quotes. -/
def entry (a b c d : Nat) (n v : Str) : Str :=
  wrapped a b n ++ ";v=".toList ++ wrapped c d v

/-- The quoted wire form `"n";v="v"`. -/
def quoted (n v : Str) : Str := entry 1 1 1 1 n v

/-- The unquoted wire form `n;v=v`. -/
def unquoted (n v : Str) : Str := entry 0 0 0 0 n v

/-- The string `out` is `raw` with exactly the non-printable code points removed: what is
left stands in the original order, is printable, and no printable code point is lost. -/
def Sanitized (isPrint : Char → Bool) (raw out : Str) : Prop :=
  out.Sublist raw ∧ (∀ c ∈ out, isPrint c = true) ∧
    ∀ c, isPrint c = true → out.count c = raw.count c

/-- The accessors that return the sanitized value of their header, each with its header. -/
def plainAccessors : List (((Char → Bool) → Header → Str) × String) :=
  [(GetArch, SecCHUAArch), (GetBitness, SecCHUABitness), (GetPlatform, SecCHUAPlatform),
    (GetPlatformVersion, SecCHUAPlatformVersion), (GetColorScheme, SecCHPrefersColorScheme)]

/-- All string accessors, each with its header. -/
def stringAccessors : List (((Char → Bool) → Header → Str) × String) :=
  (GetModel, SecCHUAModel) :: plainAccessors

/-- The string `s` with one leading and one trailing double quote dropped when present:
the single-layer stripping in the words of the specification. -/
def stripOneLayer (s : Str) : Str :=
  let s1 := match s with
    | c :: cs => if c = dq then cs else c :: cs
    | [] => []
  match s1.getLast? with
  | some c => if c = dq then s1.dropLast else s1
  | none => s1

/-- The skip tests of the loop of `GetBrand` on a token of a list of `total` tokens, with
the spellings the code tests. -/
def Skipped (total : Nat) (p : Str) : Prop :=
  TrimSpace p = [] ∨ isDecoy p = true ∨ (hasChromium p = true ∧ 2 < total)

/-- The skip tests in the words of the specification: empty after trimming, or `not` or
`brand` in some letter case, or `chromium` in some letter case in a list of more than
two tokens. -/
def SkippedAnyCase (total : Nat) (p : Str) : Prop :=
  TrimSpace p = [] ∨ isDecoyAnyCase p = true ∨ (hasChromiumAnyCase p = true ∧ 2 < total)

/-- The Brand `b` is the first substantive entry of the Sec-CH-UA list: it is parsed from a
token `t` that is non-empty after trimming, every token before `t` is skipped, and every
list with the same tokens up to `t` and on the same side of the more-than-two test gives
the same Brand. -/
def FirstSubstantive (isPrint : Char → Bool) (headers : Header) (b : Brand) : Prop :=
  ∃ (pre : List Str) (t : Str) (post : List Str),
    Split (headers.Get SecCHUA) ",".toList = pre ++ t :: post ∧
    TrimSpace t ≠ [] ∧ headerValueToBrand isPrint (TrimSpace t) = .ok b ∧
    (∀ p ∈ pre, Skipped (pre ++ t :: post).length p) ∧
    (∀ p ∈ pre, SkippedAnyCase (pre ++ t :: post).length p) ∧
    ∀ (headers2 : Header) (post2 : List Str),
      Split (headers2.Get SecCHUA) ",".toList = pre ++ t :: post2 →
      (2 < (pre ++ t :: post2).length ↔ 2 < (pre ++ t :: post).length) →
      GetBrand isPrint headers2 = .ok (some b)

/-- A well-formed token of the list: a quoted or unquoted entry, possibly surrounded by
whitespace (as after a `, ` in the list). -/
def WellFormed (tok n v : Str) : Prop :=
  ∃ pre post : Str, (∀ c ∈ pre, isSpace c = true) ∧ (∀ c ∈ post, isSpace c = true) ∧
    (tok = pre ++ quoted n v ++ post ∨ tok = pre ++ unquoted n v ++ post)

end ch

namespace ch

/-! ## Lemmas on the string functions -/

theorem Contains_iff (s sub : Str) : Contains s sub = true ↔ sub <:+: s := by
  induction s with
  | nil => simp [Contains]
  | cons c cs ih => simp [Contains, ih, List.infix_cons_iff, List.isPrefixOf_iff_prefix]

theorem Contains_false_iff (s sub : Str) : Contains s sub = false ↔ ¬ sub <:+: s := by
  rw [← Contains_iff]; simp

theorem dropWhile_all (f : Char → Bool) (pre rest : Str) (h : ∀ c ∈ pre, f c = true) :
    (pre ++ rest).dropWhile f = rest.dropWhile f := by
  induction pre with
  | nil => rfl
  | cons c cs ih =>
    have hc : f c = true := h c (by simp)
    simp only [List.cons_append, List.dropWhile_cons, hc, if_true]
    exact ih (fun x hx => h x (by simp [hx]))

theorem dropWhile_head (f : Char → Bool) (s : Str)
    (h : ∀ c, s.head? = some c → f c = false) : s.dropWhile f = s := by
  cases s with
  | nil => rfl
  | cons c cs => simp [List.dropWhile_cons, h c rfl]

theorem dropWhile_head_append (f : Char → Bool) (s t : Str) (hs : s ≠ [])
    (h : ∀ c, s.head? = some c → f c = false) : (s ++ t).dropWhile f = s ++ t := by
  cases s with
  | nil => exact absurd rfl hs
  | cons c cs => simp [List.dropWhile_cons, h c rfl]

/-- Trimming removes a padding of `f`-characters around a core without `f`-edges. -/
theorem TrimFunc_pad (f : Char → Bool) (pre core post : Str)
    (hpre : ∀ c ∈ pre, f c = true) (hpost : ∀ c ∈ post, f c = true)
    (hcore : NoEdge f core) : TrimFunc (pre ++ core ++ post) f = core := by
  unfold TrimFunc
  rw [List.append_assoc, dropWhile_all f pre _ hpre]
  by_cases hne : core = []
  · subst hne
    have h0 : ([] ++ post : Str).dropWhile f = [] := by
      have := dropWhile_all f post [] hpost
      simpa using this
    rw [h0]; rfl
  · rw [dropWhile_head_append f core post hne hcore.1, List.reverse_append,
      dropWhile_all f post.reverse _ (fun c hc => hpost c (List.mem_reverse.mp hc)),
      dropWhile_head f core.reverse (by simpa [List.head?_reverse] using hcore.2),
      List.reverse_reverse]

theorem TrimFunc_self (f : Char → Bool) (s : Str) (h : NoEdge f s) : TrimFunc s f = s := by
  simpa using TrimFunc_pad f [] s [] (by simp) (by simp) h

theorem NoEdge_append (f : Char → Bool) (s t : Str) (hs : NoEdge f s) (ht : NoEdge f t) :
    NoEdge f (s ++ t) := by
  constructor
  · intro c hc
    cases s with
    | nil => exact ht.1 c (by simpa using hc)
    | cons x xs => exact hs.1 c (by simpa using hc)
  · intro c hc
    by_cases h : t = []
    · subst h; exact hs.2 c (by simpa using hc)
    · exact ht.2 c (by simpa [List.getLast?_append_of_ne_nil _ h] using hc)

theorem NoEdge_all (f : Char → Bool) (s : Str) (h : ∀ c ∈ s, f c = false) : NoEdge f s :=
  ⟨fun c hc => h c (List.mem_of_mem_head? hc), fun c hc => h c (List.mem_of_mem_getLast? hc)⟩

/-- A word without the character `d` that occurs in `l ++ d :: r` occurs in `l` or in `r`. -/
theorem infix_split_char (w l r : Str) (d : Char) (hd : d ∉ w) (h : w <:+: l ++ d :: r) :
    w <:+: l ∨ w <:+: r := by
  induction l with
  | nil =>
    rcases List.infix_cons_iff.mp h with hp | hi
    · cases w with
      | nil => exact Or.inl List.nil_infix
      | cons x xs =>
        have : x = d := (List.cons_prefix_cons.mp hp).1
        exact absurd (by simp [this]) hd
    · exact Or.inr hi
  | cons c l ih =>
    rcases List.infix_cons_iff.mp h with hp | hi
    · have hcl : c :: l <+: c :: l ++ d :: r := List.prefix_append _ _
      rcases List.prefix_or_prefix_of_prefix hp hcl with h1 | h2
      · exact Or.inl h1.isInfix
      · obtain ⟨t, ht⟩ := h2
        subst ht
        cases t with
        | nil => exact Or.inl (by simp)
        | cons x xs =>
          have hx : (x :: xs) <+: d :: r := (List.prefix_append_right_inj (c :: l)).mp hp
          have : x = d := (List.cons_prefix_cons.mp hx).1
          exact absurd (by simp [this]) hd
    · rcases ih hi with h1 | h2
      · exact Or.inl (List.infix_cons h1)
      · exact Or.inr h2

/-- A non-empty word that shares no character with the non-empty middle part `m` and
occurs in `l ++ m ++ r` occurs in `l` or in `r`. -/
theorem infix_split (w m : Str) (hw : w ≠ []) (hm : ∀ c ∈ m, c ∉ w) (hne : m ≠ []) :
    ∀ l r : Str, w <:+: l ++ m ++ r → w <:+: l ∨ w <:+: r := by
  induction m with
  | nil => exact absurd rfl hne
  | cons d m ih =>
    intro l r h
    have h1 : w <:+: l ++ d :: (m ++ r) := by simpa using h
    rcases infix_split_char w l (m ++ r) d (hm d (by simp)) h1 with hl | hr
    · exact Or.inl hl
    · by_cases hm0 : m = []
      · subst hm0; exact Or.inr (by simpa using hr)
      · rcases ih (fun c hc => hm c (by simp [hc])) hm0 [] r (by simpa using hr) with h2 | h3
        · exact absurd (List.eq_nil_of_infix_nil h2) hw
        · exact Or.inr h3

theorem infix_strip_left (w m s : Str) (hw : w ≠ []) (hm : ∀ c ∈ m, c ∉ w)
    (h : w <:+: m ++ s) : w <:+: s := by
  by_cases hm0 : m = []
  · subst hm0; simpa using h
  · rcases infix_split w m hw hm hm0 [] s (by simpa using h) with h2 | h3
    · exact absurd (List.eq_nil_of_infix_nil h2) hw
    · exact h3

theorem infix_strip_right (w m s : Str) (hw : w ≠ []) (hm : ∀ c ∈ m, c ∉ w)
    (h : w <:+: s ++ m) : w <:+: s := by
  by_cases hm0 : m = []
  · subst hm0; simpa using h
  · rcases infix_split w m hw hm hm0 s [] (by simpa using h) with h2 | h3
    · exact h2
    · exact absurd (List.eq_nil_of_infix_nil h3) hw

/-! ## Lemmas on `Split` -/

theorem splitGo_skip (sep x b : Str) : splitGo sep (x ++ b) x.length = splitGo sep b 0 := by
  induction x with
  | nil => rfl
  | cons c cs ih => simpa [splitGo] using ih

theorem splitGo_none (sep s : Str) (h : ¬ sep <:+: s) : splitGo sep s 0 = [s] := by
  induction s with
  | nil => rfl
  | cons c cs ih =>
    have hp : sep.isPrefixOf (c :: cs) = false := by
      rw [Bool.eq_false_iff]
      intro hp
      exact h (List.isPrefixOf_iff_prefix.mp hp).isInfix
    have hcs : ¬ sep <:+: cs := fun hi => h (List.infix_cons hi)
    simp [splitGo, hp, ih hcs]

theorem splitGo_first (sep a b : Str) (hsep : sep ≠ [])
    (h : ∀ l c r, a = l ++ c :: r → sep.isPrefixOf (c :: r ++ sep ++ b) = false) :
    splitGo sep (a ++ sep ++ b) 0 = a :: splitGo sep b 0 := by
  induction a with
  | nil =>
    cases sep with
    | nil => exact absurd rfl hsep
    | cons x xs =>
      have hp : (x :: xs).isPrefixOf (x :: (xs ++ b)) = true := by
        rw [List.isPrefixOf_iff_prefix]; exact List.prefix_append (x :: xs) b
      have := splitGo_skip (x :: xs) xs b
      simp [splitGo, hp, this]
  | cons c a ih =>
    have hp := h [] c a rfl
    have ih1 := ih (fun l c1 r hl => h (c :: l) c1 r (by simp [hl]))
    simp only [List.cons_append, List.append_assoc] at hp ih1 ⊢
    simp [splitGo, hp, ih1]

/-- An occurrence of `;v=` that starts inside `x` and lies in `x ++ ";v=" ++ b` lies in `x`. -/
theorem sep_within (x b : Str) (hx : x ≠ [])
    (h : ";v=".toList.isPrefixOf (x ++ ";v=".toList ++ b) = true) :
    ";v=".toList.isPrefixOf x = true := by
  rcases x with _ | ⟨c1, _ | ⟨c2, _ | ⟨c3, rest⟩⟩⟩
  · exact absurd rfl hx
  · simp [List.isPrefixOf] at h
  · simp [List.isPrefixOf] at h
  · simpa [List.isPrefixOf] using h

/-- Splitting `a ++ ";v=" ++ b` when neither part contains `;v=`. -/
theorem Split_sep (a b : Str) (ha : Contains a ";v=".toList = false)
    (hb : Contains b ";v=".toList = false) :
    Split (a ++ ";v=".toList ++ b) ";v=".toList = [a, b] := by
  unfold Split
  rw [splitGo_first _ a b (by decide), splitGo_none _ b ((Contains_false_iff _ _).mp hb)]
  intro l c r hl
  rw [Bool.eq_false_iff]
  intro hp
  have h1 := sep_within (c :: r) b (by simp) hp
  have h2 : ";v=".toList <:+: a := by
    rw [hl]
    exact (List.isPrefixOf_iff_prefix.mp h1).isInfix.trans (List.suffix_append l _).isInfix
  exact (Contains_false_iff _ _).mp ha h2

/-! ## Trimming and containment -/

theorem infix_dropWhile (f : Char → Bool) (w s : Str) (hw : w ≠ [])
    (hf : ∀ c, w.head? = some c → f c = false) (h : w <:+: s) : w <:+: s.dropWhile f := by
  induction s with
  | nil => simpa using h
  | cons x xs ih =>
    by_cases hx : f x = true
    · rw [List.dropWhile_cons_of_pos hx]
      rcases List.infix_cons_iff.mp h with hp | hi
      · cases w with
        | nil => exact absurd rfl hw
        | cons y ys =>
          have hy : y = x := (List.cons_prefix_cons.mp hp).1
          have := hf y rfl
          rw [hy, hx] at this
          exact absurd this (by simp)
      · exact ih hi
    · rw [List.dropWhile_cons_of_neg hx]; exact h

theorem TrimFunc_sub (f : Char → Bool) (s : Str) : TrimFunc s f <:+: s := by
  unfold TrimFunc
  have h1 : (s.dropWhile f).reverse.dropWhile f <:+ (s.dropWhile f).reverse :=
    List.dropWhile_suffix f
  have h2 : ((s.dropWhile f).reverse.dropWhile f).reverse <+: s.dropWhile f := by
    have := List.reverse_prefix.mpr h1
    simpa using this
  exact h2.isInfix.trans (List.dropWhile_suffix f).isInfix

/-- Trimming does not change whether a word without `f`-edges occurs in a string. -/
theorem Contains_TrimFunc (f : Char → Bool) (s w : Str) (hw : w ≠ []) (he : NoEdge f w) :
    Contains (TrimFunc s f) w = Contains s w := by
  rw [Bool.eq_iff_iff, Contains_iff, Contains_iff]
  constructor
  · intro h; exact h.trans (TrimFunc_sub f s)
  · intro h
    have h1 := infix_dropWhile f w s hw he.1 h
    have h2 : w.reverse <:+: (s.dropWhile f).reverse := List.reverse_infix.mpr h1
    have h3 := infix_dropWhile f w.reverse _ (by simpa using hw)
      (by simpa [List.head?_reverse] using he.2) h2
    have h4 := List.reverse_infix.mpr h3
    simpa [TrimFunc] using h4

theorem isDecoy_TrimSpace (tok : Str) : isDecoy (TrimSpace tok) = isDecoy tok := by
  unfold isDecoy TrimSpace
  rw [Contains_TrimFunc _ _ _ (by decide) (NoEdge_all _ _ (by decide)),
    Contains_TrimFunc _ _ _ (by decide) (NoEdge_all _ _ (by decide)),
    Contains_TrimFunc _ _ _ (by decide) (NoEdge_all _ _ (by decide)),
    Contains_TrimFunc _ _ _ (by decide) (NoEdge_all _ _ (by decide))]

theorem hasChromium_TrimSpace (tok : Str) : hasChromium (TrimSpace tok) = hasChromium tok := by
  unfold hasChromium TrimSpace
  rw [Contains_TrimFunc _ _ _ (by decide) (NoEdge_all _ _ (by decide)),
    Contains_TrimFunc _ _ _ (by decide) (NoEdge_all _ _ (by decide))]

/-! ## The loop of `GetBrand` -/

theorem scan_skip (total i : Nat) (tok : Str) (rest : List Str)
    (h : TrimSpace tok = [] ∨ isDecoy tok = true ∨ (hasChromium tok = true ∧ 2 < total)) :
    scan total i (tok :: rest) = scan total (i + 1) rest := by
  rw [← isDecoy_TrimSpace, ← hasChromium_TrimSpace] at h
  unfold isDecoy hasChromium at h
  rw [scan]
  split_ifs with h1 h2 h3 h4
  · rfl
  · rfl
  · rfl
  · rfl
  · exfalso
    simp only [Bool.or_eq_true, Bool.and_eq_true, decide_eq_true_eq, not_or, not_and]
      at h h2 h3 h4
    rcases h with h | h | h
    · exact h1 h
    · tauto
    · have := h4 h.1; omega

theorem scan_select (total i : Nat) (tok : Str) (rest : List Str)
    (h1 : TrimSpace tok ≠ []) (h2 : isDecoy tok = false)
    (h3 : hasChromium tok = false ∨ total ≤ 2) :
    scan total i (tok :: rest) = some (i, TrimSpace tok) := by
  rw [← isDecoy_TrimSpace] at h2
  rw [← hasChromium_TrimSpace] at h3
  unfold isDecoy at h2
  unfold hasChromium at h3
  simp only [Bool.or_eq_false_iff] at h2 h3
  rw [scan]
  simp only [h1, h2.1.1, h2.1.2, h2.2, if_false, Bool.or_self]
  rcases h3 with h3 | h3
  · simp only [h3.1, h3.2, Bool.or_self, Bool.false_and, Bool.false_eq_true, if_false]
  · have : ¬ (total > 2) := by omega
    simp only [this, decide_False, Bool.and_false, Bool.false_eq_true, if_false]

/-- The loop passes over a prefix of skipped tokens. -/
theorem scan_append (total : Nat) (pre rest : List Str)
    (h : ∀ t ∈ pre, TrimSpace t = [] ∨ isDecoy t = true ∨ (hasChromium t = true ∧ 2 < total)) :
    ∀ i, scan total i (pre ++ rest) = scan total (i + pre.length) rest := by
  induction pre with
  | nil => intro i; rfl
  | cons t ts ih =>
    intro i
    rw [List.cons_append, scan_skip total i t _ (h t (by simp)),
      ih (fun x hx => h x (by simp [hx]))]
    simp only [List.length_cons]
    congr 1
    omega

/-! ## Well-formed entries -/

theorem replicate_dq (a : Nat) :
    ∀ c ∈ List.replicate a dq, ([dq] : Str).contains c = true := by
  intro c hc
  rw [List.eq_of_mem_replicate hc]
  decide

theorem Trim_wrapped (a b : Nat) (s : Str) (h : NoEdge (fun c => [dq].contains c) s) :
    Trim (wrapped a b s) [dq] = s :=
  TrimFunc_pad _ _ _ _ (replicate_dq a) (replicate_dq b) h

theorem Contains_wrapped (w : Str) (a b : Nat) (s : Str) (hw : w ≠ []) (hq : dq ∉ w)
    (h : Contains s w = false) : Contains (wrapped a b s) w = false := by
  rw [Contains_false_iff] at h ⊢
  intro hi
  unfold wrapped at hi
  have hrep : ∀ k : Nat, ∀ c ∈ List.replicate k dq, c ∉ w := by
    intro k c hc
    rw [List.eq_of_mem_replicate hc]
    exact hq
  have h1 := infix_strip_right w _ _ hw (hrep b) hi
  exact h (infix_strip_left w _ _ hw (hrep a) h1)

theorem Contains_entry (w : Str) (a b c d : Nat) (n v : Str) (hw : w ≠ []) (hq : dq ∉ w)
    (hs : ∀ x ∈ ";v=".toList, x ∉ w) (hn : Contains n w = false)
    (hv : Contains v w = false) : Contains (entry a b c d n v) w = false := by
  rw [Contains_false_iff]
  intro hi
  rcases infix_split w ";v=".toList hw hs (by decide) _ _ hi with h1 | h1
  · exact (Contains_false_iff _ _).mp (Contains_wrapped w a b n hw hq hn) h1
  · exact (Contains_false_iff _ _).mp (Contains_wrapped w c d v hw hq hv) h1

theorem isDecoy_entry (a b c d : Nat) (n v : Str) (hn : isDecoy n = false)
    (hv : isDecoy v = false) : isDecoy (entry a b c d n v) = false := by
  unfold isDecoy at hn hv ⊢
  simp only [Bool.or_eq_false_iff] at hn hv ⊢
  exact ⟨⟨⟨Contains_entry _ a b c d n v (by decide) (by decide) (by decide) hn.1.1.1 hv.1.1.1,
    Contains_entry _ a b c d n v (by decide) (by decide) (by decide) hn.1.1.2 hv.1.1.2⟩,
    Contains_entry _ a b c d n v (by decide) (by decide) (by decide) hn.1.2 hv.1.2⟩,
    Contains_entry _ a b c d n v (by decide) (by decide) (by decide) hn.2 hv.2⟩

theorem hasChromium_entry (a b c d : Nat) (n v : Str) (hn : hasChromium n = false)
    (hv : hasChromium v = false) : hasChromium (entry a b c d n v) = false := by
  unfold hasChromium at hn hv ⊢
  simp only [Bool.or_eq_false_iff] at hn hv ⊢
  exact ⟨Contains_entry _ a b c d n v (by decide) (by decide) (by decide) hn.1 hv.1,
    Contains_entry _ a b c d n v (by decide) (by decide) (by decide) hn.2 hv.2⟩

theorem NoEdge_wrapped (f : Char → Bool) (a b : Nat) (s : Str) (hq : f dq = false)
    (h : NoEdge f s) : NoEdge f (wrapped a b s) := by
  have hrep : ∀ k : Nat, NoEdge f (List.replicate k dq) := fun k =>
    NoEdge_all f _ (fun c hc => by rw [List.eq_of_mem_replicate hc]; exact hq)
  exact NoEdge_append f _ _ (NoEdge_append f _ _ (hrep a) h) (hrep b)

theorem NoEdge_entry (a b c d : Nat) (n v : Str) (hn : NoEdge isSpace n)
    (hv : NoEdge isSpace v) : NoEdge isSpace (entry a b c d n v) :=
  NoEdge_append _ _ _
    (NoEdge_append _ _ _ (NoEdge_wrapped _ a b n (by decide) hn)
      (NoEdge_all _ _ (by decide)))
    (NoEdge_wrapped _ c d v (by decide) hv)

theorem entry_ne_nil (a b c d : Nat) (n v : Str) : entry a b c d n v ≠ [] := by
  simp [entry]

/-- The parser on an entry whose name and version are clean: any number of surrounding
double quotes is removed and the two parts come back unchanged. -/
theorem headerValueToBrand_entry (isPrint : Char → Bool) (a b c d : Nat) (n v : Str)
    (hn : Clean isPrint n) (hv : Clean isPrint v) :
    headerValueToBrand isPrint (entry a b c d n v) = .ok { Name := n, Version := v } := by
  have hs : Split (entry a b c d n v) ";v=".toList = [wrapped a b n, wrapped c d v] :=
    Split_sep _ _ (Contains_wrapped _ a b n (by decide) (by decide) hn.noSep)
      (Contains_wrapped _ c d v (by decide) (by decide) hv.noSep)
  have hfn : StripNonPrintable isPrint n = n := by
    unfold StripNonPrintable
    exact List.filter_eq_self.mpr hn.printable
  have hfv : StripNonPrintable isPrint v = v := by
    unfold StripNonPrintable
    exact List.filter_eq_self.mpr hv.printable
  unfold headerValueToBrand
  rw [hs]
  simp only [Trim_wrapped a b n hn.quoteEdge, Trim_wrapped c d v hv.quoteEdge, hfn, hfv]
  unfold TrimSpace
  rw [TrimFunc_self _ n hn.spaceEdge, TrimFunc_self _ v hv.spaceEdge]

/-- The loop selects a padded entry that is no decoy and, in a list of more than two
tokens, no engine entry. -/
theorem scan_entry (total i : Nat) (pre post : Str) (rest : List Str) (a b c d : Nat)
    (n v : Str) (hpre : ∀ x ∈ pre, isSpace x = true) (hpost : ∀ x ∈ post, isSpace x = true)
    (hn : NoEdge isSpace n) (hv : NoEdge isSpace v)
    (hnd : isDecoy n = false) (hvd : isDecoy v = false)
    (hc : (hasChromium n = false ∧ hasChromium v = false) ∨ total ≤ 2) :
    scan total i ((pre ++ entry a b c d n v ++ post) :: rest)
      = some (i, entry a b c d n v) := by
  have ht : TrimSpace (pre ++ entry a b c d n v ++ post) = entry a b c d n v :=
    TrimFunc_pad _ _ _ _ hpre hpost (NoEdge_entry a b c d n v hn hv)
  have h := scan_select total i (pre ++ entry a b c d n v ++ post) rest
    (by rw [ht]; exact entry_ne_nil a b c d n v)
    (by rw [← isDecoy_TrimSpace, ht]; exact isDecoy_entry a b c d n v hnd hvd)
    (by
      rcases hc with hc | hc
      · left; rw [← hasChromium_TrimSpace, ht]; exact hasChromium_entry a b c d n v hc.1 hc.2
      · right; exact hc)
  rw [h, ht]

theorem WellFormed_entry (tok n v : Str) (h : WellFormed tok n v) :
    ∃ (pre post : Str) (a : Nat), (∀ x ∈ pre, isSpace x = true) ∧
      (∀ x ∈ post, isSpace x = true) ∧ tok = pre ++ entry a a a a n v ++ post := by
  obtain ⟨pre, post, h1, h2, h3 | h3⟩ := h
  · exact ⟨pre, post, 1, h1, h2, h3⟩
  · exact ⟨pre, post, 0, h1, h2, h3⟩

/-! ## Letter case -/

theorem Contains_of_anyCase (s w u : Str) (hw : w.map Char.toLower = u.map Char.toLower)
    (h : ContainsAnyCase s u = false) : Contains s w = false := by
  unfold ContainsAnyCase at h
  rw [Contains_false_iff] at h ⊢
  intro hi
  apply h
  rw [← hw]
  obtain ⟨l, r, hlr⟩ := hi
  exact ⟨l.map Char.toLower, r.map Char.toLower, by rw [← hlr]; simp⟩

theorem isDecoy_of_anyCase (s : Str) (h : isDecoyAnyCase s = false) : isDecoy s = false := by
  unfold isDecoyAnyCase at h
  unfold isDecoy
  simp only [Bool.or_eq_false_iff] at h ⊢
  exact ⟨⟨⟨Contains_of_anyCase _ _ _ (by decide) h.1, Contains_of_anyCase _ _ _ (by decide) h.1⟩,
    Contains_of_anyCase _ _ _ (by decide) h.2⟩, Contains_of_anyCase _ _ _ (by decide) h.2⟩

theorem hasChromium_of_anyCase (s : Str) (h : hasChromiumAnyCase s = false) :
    hasChromium s = false := by
  unfold hasChromiumAnyCase at h
  unfold hasChromium
  simp only [Bool.or_eq_false_iff]
  exact ⟨Contains_of_anyCase _ _ _ (by decide) h, Contains_of_anyCase _ _ _ (by decide) h⟩

/-! ## From the loop to `GetBrand` -/

theorem Split_comma_none (s : Str) (h : Contains s ",".toList = false) :
    Split s ",".toList = [s] :=
  splitGo_none _ _ ((Contains_false_iff _ _).mp h)

theorem GetBrand_of_scan (isPrint : Char → Bool) (headers : Header) (data : List Str)
    (i : Nat) (val : Str) (hs : Split (headers.Get SecCHUA) ",".toList = data)
    (hscan : scan data.length 0 data = some (i, val)) :
    GetBrand isPrint headers = (headerValueToBrand isPrint val).map some := by
  unfold GetBrand selected
  simp only [hs, hscan]

theorem GetBrand_of_scan_none (isPrint : Char → Bool) (headers : Header) (data : List Str)
    (hs : Split (headers.Get SecCHUA) ",".toList = data)
    (hscan : scan data.length 0 data = none) :
    GetBrand isPrint headers = .ok none := by
  unfold GetBrand selected
  simp only [hs, hscan]

/-- What the loop has seen when it returns: the tokens before the returned one were all
skipped, the returned one passed every test. -/
theorem scan_some (total : Nat) : ∀ (data : List Str) (i j : Nat) (val : Str),
    scan total i data = some (j, val) →
    ∃ pre tok post, data = pre ++ tok :: post ∧ j = i + pre.length ∧ val = TrimSpace tok ∧
      TrimSpace tok ≠ [] ∧ isDecoy tok = false ∧ (hasChromium tok = false ∨ total ≤ 2) ∧
      ∀ t ∈ pre, TrimSpace t = [] ∨ isDecoy t = true ∨ (hasChromium t = true ∧ 2 < total) := by
  intro data
  induction data with
  | nil => intro i j val h; simp [scan] at h
  | cons tok rest ih =>
    intro i j val h
    by_cases hskip :
        TrimSpace tok = [] ∨ isDecoy tok = true ∨ (hasChromium tok = true ∧ 2 < total)
    · rw [scan_skip total i tok rest hskip] at h
      obtain ⟨pre, t, post, h1, h2, h3, h4, h5, h6, h7⟩ := ih (i + 1) j val h
      refine ⟨tok :: pre, t, post, by simp [h1], by simp [h2]; omega, h3, h4, h5, h6, ?_⟩
      intro x hx
      rcases List.mem_cons.mp hx with hx | hx
      · rw [hx]; exact hskip
      · exact h7 x hx
    · simp only [not_or, not_and, Bool.not_eq_true] at hskip
      have h6 : hasChromium tok = false ∨ total ≤ 2 := by
        by_cases hc : hasChromium tok = true
        · right; have := hskip.2.2 hc; omega
        · left; simpa using hc
      rw [scan_select total i tok rest hskip.1 hskip.2.1 h6] at h
      simp only [Option.some.injEq, Prod.mk.injEq] at h
      exact ⟨[], tok, rest, rfl, by simp [h.1], h.2.symm, hskip.1, hskip.2.1, h6, by simp⟩

theorem scan_all_skipped (total : Nat) (data : List Str) (i : Nat)
    (h : ∀ t ∈ data, TrimSpace t = [] ∨ isDecoy t = true ∨ (hasChromium t = true ∧ 2 < total)) :
    scan total i data = none := by
  have := scan_append total data [] h i
  simpa [scan] using this

theorem TrimSpace_of_all_space (t : Str) (h : ∀ c ∈ t, isSpace c = true) :
    TrimSpace t = [] := by
  have := TrimFunc_pad isSpace t [] [] h (by simp) (NoEdge_all _ _ (by simp))
  simpa [TrimSpace] using this

theorem Contains_false_of_sub (s t w : Str) (hst : s <:+: t) (h : Contains t w = false) :
    Contains s w = false := by
  rw [Contains_false_iff] at h ⊢
  exact fun hw => h (hw.trans hst)

theorem hasChromium_false_of_sub (s t : Str) (hst : s <:+: t)
    (h : hasChromium t = false) : hasChromium s = false := by
  unfold hasChromium at h ⊢
  simp only [Bool.or_eq_false_iff] at h ⊢
  exact ⟨Contains_false_of_sub s t _ hst h.1, Contains_false_of_sub s t _ hst h.2⟩

theorem name_sub (pre post : Str) (a b c d : Nat) (n v : Str) :
    n <:+: pre ++ entry a b c d n v ++ post :=
  ⟨pre ++ List.replicate a dq,
    List.replicate b dq ++ ";v=".toList ++ wrapped c d v ++ post,
    by simp [entry, wrapped, List.append_assoc]⟩

theorem version_sub (pre post : Str) (a b c d : Nat) (n v : Str) :
    v <:+: pre ++ entry a b c d n v ++ post :=
  ⟨pre ++ wrapped a b n ++ ";v=".toList ++ List.replicate c dq,
    List.replicate d dq ++ post,
    by simp [entry, wrapped, List.append_assoc]⟩

/-! ## Claims on `GetBrand` -/

/-- C1: round trip on a well-formed single entry. For every name n and version v made of
printable characters only, without leading or trailing whitespace or double quote,
without a comma and without the separator, and without not, brand, chromium in any
letter case, GetBrand on the quoted form and on the unquoted form of the entry returns
the Brand with Name n and Version v. -/
theorem GetBrand_roundtrip (isPrint : Char → Bool) (headers : Header) (n v : Str)
    (hn : Clean isPrint n) (hv : Clean isPrint v)
    (hnd : isDecoyAnyCase n = false) (hvd : isDecoyAnyCase v = false)
    (hnc : hasChromiumAnyCase n = false) (hvc : hasChromiumAnyCase v = false)
    (hua : headers.Get SecCHUA = quoted n v ∨ headers.Get SecCHUA = unquoted n v) :
    GetBrand isPrint headers = .ok (some { Name := n, Version := v }) := by
  obtain ⟨a, hua1⟩ : ∃ a, headers.Get SecCHUA = entry a a a a n v := by
    rcases hua with h | h
    · exact ⟨1, h⟩
    · exact ⟨0, h⟩
  have hsplit : Split (headers.Get SecCHUA) ",".toList = [entry a a a a n v] := by
    rw [hua1]
    exact Split_comma_none _
      (Contains_entry _ a a a a n v (by decide) (by decide) (by decide) hn.noComma hv.noComma)
  have hscan := scan_entry 1 0 [] [] [] a a a a n v (by simp) (by simp) hn.spaceEdge
    hv.spaceEdge (isDecoy_of_anyCase n hnd) (isDecoy_of_anyCase v hvd)
    (Or.inl ⟨hasChromium_of_anyCase n hnc, hasChromium_of_anyCase v hvc⟩)
  simp only [List.nil_append, List.append_nil] at hscan
  rw [GetBrand_of_scan isPrint headers _ 0 _ hsplit hscan,
    headerValueToBrand_entry isPrint a a a a n v hn hv]
  rfl

theorem GetBrand_roundtrip_witness :
    GetBrand isPrintASCII (single SecCHUA (quoted "Opera".toList "81".toList))
      = .ok (some { Name := "Opera".toList, Version := "81".toList }) :=
  GetBrand_roundtrip isPrintASCII _ "Opera".toList "81".toList
    ⟨by decide, by decide, by decide, by decide, by decide⟩
    ⟨by decide, by decide, by decide, by decide, by decide⟩
    (by decide) (by decide) (by decide) (by decide) (Or.inl rfl)

/-- C2 as stated fails, for the decoy and for the engine entry. In
`NOT;v=1,Chromium;v=96,Opera;v=81` the first token contains `not` in capital letters, the
second is the engine entry and the third is the one well-formed entry that is neither,
yet GetBrand returns NOT and 1. In `CHROMIUM;v=96,Not;v=1,Opera;v=81` the first token
contains `chromium` in capital letters, the second is a decoy, and GetBrand returns
CHROMIUM and 96. Neither result is Opera and 81. -/
theorem supersession_anyCase_counterexample :
    (Split "NOT;v=1,Chromium;v=96,Opera;v=81".toList ",".toList
        = ["NOT;v=1".toList, "Chromium;v=96".toList, "Opera;v=81".toList] ∧
      isDecoyAnyCase "NOT;v=1".toList = true ∧
      hasChromiumAnyCase "Chromium;v=96".toList = true ∧
      GetBrand isPrintASCII (single SecCHUA "NOT;v=1,Chromium;v=96,Opera;v=81".toList)
        = .ok (some { Name := "NOT".toList, Version := "1".toList })) ∧
    (Split "CHROMIUM;v=96,Not;v=1,Opera;v=81".toList ",".toList
        = ["CHROMIUM;v=96".toList, "Not;v=1".toList, "Opera;v=81".toList] ∧
      hasChromiumAnyCase "CHROMIUM;v=96".toList = true ∧
      isDecoyAnyCase "Not;v=1".toList = true ∧
      GetBrand isPrintASCII (single SecCHUA "CHROMIUM;v=96,Not;v=1,Opera;v=81".toList)
        = .ok (some { Name := "CHROMIUM".toList, Version := "96".toList })) ∧
    ("Opera;v=81".toList = unquoted "Opera".toList "81".toList ∧
      Clean isPrintASCII "Opera".toList ∧ Clean isPrintASCII "81".toList ∧
      isDecoyAnyCase "Opera;v=81".toList = false ∧
      hasChromiumAnyCase "Opera;v=81".toList = false) ∧
    ({ Name := "NOT".toList, Version := "1".toList } : Brand)
      ≠ { Name := "Opera".toList, Version := "81".toList } ∧
    ({ Name := "CHROMIUM".toList, Version := "96".toList } : Brand)
      ≠ { Name := "Opera".toList, Version := "81".toList } := by
  refine ⟨⟨by rfl, by decide, by decide, by rfl⟩, ⟨by rfl, by decide, by decide, by rfl⟩,
    ⟨by rfl, ⟨by decide, by decide, by decide, by decide, by decide⟩,
      ⟨by decide, by decide, by decide, by decide, by decide⟩, by decide, by decide⟩,
    by decide, by decide⟩

/-- C2, amended: engine supersession with the spellings the code tests. For every
Sec-CH-UA value that splits on the comma into three or more tokens, among them a token
containing Not, not, Brand or brand, a token containing Chromium or chromium, and exactly
one other token, which is well-formed, GetBrand returns the name and version of that
token, and they contain no Chromium or chromium, wherever the token stands in the list. -/
theorem GetBrand_supersession (isPrint : Char → Bool) (headers : Header)
    (pre post : List Str) (tok n v : Str)
    (hsplit : Split (headers.Get SecCHUA) ",".toList = pre ++ tok :: post)
    (hlen : 3 ≤ (pre ++ tok :: post).length)
    (_hdecoy : ∃ t ∈ pre ++ post, isDecoy t = true)
    (_hengine : ∃ t ∈ pre ++ post, hasChromium t = true)
    (hothers : ∀ t ∈ pre ++ post, isDecoy t = true ∨ hasChromium t = true)
    (htok : WellFormed tok n v) (hn : Clean isPrint n) (hv : Clean isPrint v)
    (hnd : isDecoy tok = false) (hnc : hasChromium tok = false) :
    GetBrand isPrint headers = .ok (some { Name := n, Version := v }) ∧
      hasChromium n = false ∧ hasChromium v = false := by
  obtain ⟨ws1, ws2, a, h1, h2, htk⟩ := WellFormed_entry tok n v htok
  have hskip : ∀ t ∈ pre, TrimSpace t = [] ∨ isDecoy t = true ∨
      (hasChromium t = true ∧ 2 < (pre ++ tok :: post).length) := by
    intro t ht
    rcases hothers t (List.mem_append_left _ ht) with h | h
    · exact Or.inr (Or.inl h)
    · exact Or.inr (Or.inr ⟨h, by omega⟩)
  have ht : TrimSpace tok = entry a a a a n v := by
    rw [htk]
    exact TrimFunc_pad _ _ _ _ h1 h2 (NoEdge_entry a a a a n v hn.spaceEdge hv.spaceEdge)
  have hsel := scan_select (pre ++ tok :: post).length (0 + pre.length) tok post
    (by rw [ht]; exact entry_ne_nil a a a a n v) hnd (Or.inl hnc)
  have hscan : scan (pre ++ tok :: post).length 0 (pre ++ tok :: post)
      = some (0 + pre.length, entry a a a a n v) := by
    rw [scan_append _ pre _ hskip 0, hsel, ht]
  refine ⟨?_, ?_, ?_⟩
  · rw [GetBrand_of_scan isPrint headers _ _ _ hsplit hscan,
      headerValueToBrand_entry isPrint a a a a n v hn hv]
    rfl
  · exact hasChromium_false_of_sub n tok (by rw [htk]; exact name_sub _ _ _ _ _ _ _ _) hnc
  · exact hasChromium_false_of_sub v tok (by rw [htk]; exact version_sub _ _ _ _ _ _ _ _) hnc

theorem GetBrand_supersession_witness :
    GetBrand isPrintASCII (single SecCHUA
        (quoted "Not A;Brand".toList "99".toList ++ ", ".toList ++
          quoted "Chromium".toList "96".toList ++ ", ".toList ++
          quoted "Opera".toList "81".toList))
        = .ok (some { Name := "Opera".toList, Version := "81".toList }) ∧
      hasChromium "Opera".toList = false ∧ hasChromium "81".toList = false :=
  GetBrand_supersession isPrintASCII _
    [quoted "Not A;Brand".toList "99".toList, " ".toList ++ quoted "Chromium".toList "96".toList]
    [] (" ".toList ++ quoted "Opera".toList "81".toList) "Opera".toList "81".toList
    (by rfl) (by decide) (by decide) (by decide) (by decide)
    ⟨" ".toList, [], by decide, by decide, Or.inl rfl⟩
    ⟨by decide, by decide, by decide, by decide, by decide⟩
    ⟨by decide, by decide, by decide, by decide, by decide⟩
    (by decide) (by decide)

/-- C3 as stated fails: `BRAND;v=8,Chromium;v=96` splits into two tokens, the first
contains `brand` in capital letters, the second is a well-formed engine entry, yet
GetBrand returns BRAND and 8, not Chromium and 96. -/
theorem elimination_anyCase_counterexample :
    Split "BRAND;v=8,Chromium;v=96".toList ",".toList
        = ["BRAND;v=8".toList, "Chromium;v=96".toList] ∧
      isDecoyAnyCase "BRAND;v=8".toList = true ∧
      "Chromium;v=96".toList = unquoted "Chromium".toList "96".toList ∧
      Clean isPrintASCII "Chromium".toList ∧ Clean isPrintASCII "96".toList ∧
      isDecoyAnyCase "Chromium;v=96".toList = false ∧
      hasChromium "Chromium;v=96".toList = true ∧
      GetBrand isPrintASCII (single SecCHUA "BRAND;v=8,Chromium;v=96".toList)
        = .ok (some { Name := "BRAND".toList, Version := "8".toList }) ∧
      GetBrand isPrintASCII (single SecCHUA "BRAND;v=8,Chromium;v=96".toList)
        ≠ .ok (some { Name := "Chromium".toList, Version := "96".toList }) := by
  refine ⟨by rfl, by decide, by rfl,
    ⟨by decide, by decide, by decide, by decide, by decide⟩,
    ⟨by decide, by decide, by decide, by decide, by decide⟩, by decide, by decide, by rfl, ?_⟩
  have h : GetBrand isPrintASCII (single SecCHUA "BRAND;v=8,Chromium;v=96".toList)
      = .ok (some { Name := "BRAND".toList, Version := "8".toList }) := by rfl
  rw [h]
  decide

/-- C3, amended: engine elimination with the spellings the code tests. For every
Sec-CH-UA value that splits on the comma into exactly two tokens, one containing Not,
not, Brand or brand and the other a well-formed token without these that contains
chromium, in either order, GetBrand returns the name and version of the Chromium token. -/
theorem GetBrand_elimination (isPrint : Char → Bool) (headers : Header) (d tok n v : Str)
    (hsplit : Split (headers.Get SecCHUA) ",".toList = [d, tok] ∨
      Split (headers.Get SecCHUA) ",".toList = [tok, d])
    (hd : isDecoy d = true)
    (htok : WellFormed tok n v) (hn : Clean isPrint n) (hv : Clean isPrint v)
    (hnd : isDecoy tok = false) (_hc : hasChromiumAnyCase tok = true) :
    GetBrand isPrint headers = .ok (some { Name := n, Version := v }) := by
  obtain ⟨ws1, ws2, a, h1, h2, htk⟩ := WellFormed_entry tok n v htok
  have ht : TrimSpace tok = entry a a a a n v := by
    rw [htk]
    exact TrimFunc_pad _ _ _ _ h1 h2 (NoEdge_entry a a a a n v hn.spaceEdge hv.spaceEdge)
  have hne : TrimSpace tok ≠ [] := by rw [ht]; exact entry_ne_nil a a a a n v
  rcases hsplit with hs | hs
  · have hscan : scan [d, tok].length 0 [d, tok] = some (1, entry a a a a n v) := by
      rw [scan_skip _ 0 d [tok] (Or.inr (Or.inl hd)),
        scan_select _ (0 + 1) tok [] hne hnd (Or.inr (by simp)), ht]
    rw [GetBrand_of_scan isPrint headers _ _ _ hs hscan,
      headerValueToBrand_entry isPrint a a a a n v hn hv]
    rfl
  · have hscan : scan [tok, d].length 0 [tok, d] = some (0, entry a a a a n v) := by
      rw [scan_select _ 0 tok [d] hne hnd (Or.inr (by simp)), ht]
    rw [GetBrand_of_scan isPrint headers _ _ _ hs hscan,
      headerValueToBrand_entry isPrint a a a a n v hn hv]
    rfl

theorem GetBrand_elimination_witness :
    GetBrand isPrintASCII (single SecCHUA
        (quoted "(Not(A:Brand".toList "8".toList ++ ",".toList ++
          quoted "Chromium".toList "96".toList))
        = .ok (some { Name := "Chromium".toList, Version := "96".toList }) :=
  GetBrand_elimination isPrintASCII _ (quoted "(Not(A:Brand".toList "8".toList)
    (quoted "Chromium".toList "96".toList) "Chromium".toList "96".toList
    (Or.inl (by rfl)) (by decide) ⟨[], [], by decide, by decide, Or.inl rfl⟩
    ⟨by decide, by decide, by decide, by decide, by decide⟩
    ⟨by decide, by decide, by decide, by decide, by decide⟩
    (by decide) (by decide)

/-- C4 as stated fails: the single token `nOt A;BRAND;v=99` contains `not` and `brand` in
mixed and capital letters, yet the loop of GetBrand selects it (position 0) and the
returned Brand is parsed from it. -/
theorem decoy_anyCase_counterexample :
    Split "nOt A;BRAND;v=99".toList ",".toList = ["nOt A;BRAND;v=99".toList] ∧
      isDecoyAnyCase "nOt A;BRAND;v=99".toList = true ∧
      selected (single SecCHUA "nOt A;BRAND;v=99".toList)
        = some (0, "nOt A;BRAND;v=99".toList) ∧
      GetBrand isPrintASCII (single SecCHUA "nOt A;BRAND;v=99".toList)
        = .ok (some { Name := "nOt A;BRAND".toList, Version := "99".toList }) := by
  refine ⟨by rfl, by decide, by rfl, by rfl⟩

/-- C4, amended: the decoy filter with the spellings the code tests. For every Sec-CH-UA
value and every position in the list, a token that contains Not, not, Brand or brand is
never the token the loop of GetBrand selects; and whenever GetBrand returns a Brand, it is
parsed from the selected token, which stands at another position and contains none of
the four spellings. -/
theorem decoy_never_selected (isPrint : Char → Bool) (headers : Header) (i : Nat)
    (tok : Str) (hi : (Split (headers.Get SecCHUA) ",".toList)[i]? = some tok)
    (hd : isDecoy tok = true) :
    (∀ val, selected headers ≠ some (i, val)) ∧
      ∀ b, GetBrand isPrint headers = .ok (some b) →
        ∃ j t, j ≠ i ∧ (Split (headers.Get SecCHUA) ",".toList)[j]? = some t ∧
          isDecoy t = false ∧ selected headers = some (j, TrimSpace t) ∧
          headerValueToBrand isPrint (TrimSpace t) = .ok b := by
  have key : ∀ j val, selected headers = some (j, val) →
      ∃ t, j ≠ i ∧ (Split (headers.Get SecCHUA) ",".toList)[j]? = some t ∧
        isDecoy t = false ∧ val = TrimSpace t := by
    intro j val hsel
    unfold selected at hsel
    obtain ⟨pre, t, post, h1, h2, h3, -, h5, -, -⟩ := scan_some _ _ _ _ _ hsel
    have hj : (Split (headers.Get SecCHUA) ",".toList)[j]? = some t := by
      rw [h1, h2, Nat.zero_add, List.getElem?_append_right (le_refl _)]; simp
    refine ⟨t, ?_, hj, h5, h3⟩
    intro hji
    rw [hji, hi] at hj
    have : tok = t := by simpa using hj
    rw [this, h5] at hd
    exact absurd hd (by simp)
  constructor
  · intro val hsel
    obtain ⟨t, hne, -⟩ := key i val hsel
    exact hne rfl
  · intro b hb
    unfold GetBrand at hb
    cases hsel : selected headers with
    | none => rw [hsel] at hb; simp at hb
    | some p =>
      obtain ⟨j, val⟩ := p
      rw [hsel] at hb
      simp only at hb
      obtain ⟨t, hne, hj, hdt, hval⟩ := key j val hsel
      refine ⟨j, t, hne, hj, hdt, by rw [hval], ?_⟩
      rw [← hval]
      cases hp : headerValueToBrand isPrint val with
      | error e => rw [hp] at hb; simp [Except.map] at hb
      | ok b1 =>
        rw [hp] at hb
        simp only [Except.map, Except.ok.injEq, Option.some.injEq] at hb
        rw [hb]

theorem decoy_never_selected_witness :
    (∀ val, selected (single SecCHUA "Not A;Brand;v=99,Opera;v=81".toList) ≠ some (0, val)) ∧
      ∀ b, GetBrand isPrintASCII (single SecCHUA "Not A;Brand;v=99,Opera;v=81".toList)
          = .ok (some b) →
        ∃ j t, j ≠ 0 ∧
          (Split ((single SecCHUA "Not A;Brand;v=99,Opera;v=81".toList).Get SecCHUA)
            ",".toList)[j]? = some t ∧
          isDecoy t = false ∧
          selected (single SecCHUA "Not A;Brand;v=99,Opera;v=81".toList)
            = some (j, TrimSpace t) ∧
          headerValueToBrand isPrintASCII (TrimSpace t) = .ok b :=
  decoy_never_selected isPrintASCII (single SecCHUA "Not A;Brand;v=99,Opera;v=81".toList) 0
    "Not A;Brand;v=99".toList (by rfl) (by decide)

/-- C5 as stated fails: ` ,NOT;v=1` splits into a whitespace-only token and a token
containing `not` in capital letters, yet GetBrand returns the Brand NOT, 1. -/
theorem absence_anyCase_counterexample :
    Split " ,NOT;v=1".toList ",".toList = [" ".toList, "NOT;v=1".toList] ∧
      (∀ c ∈ " ".toList, isSpace c = true) ∧
      isDecoyAnyCase "NOT;v=1".toList = true ∧
      GetBrand isPrintASCII (single SecCHUA " ,NOT;v=1".toList)
        = .ok (some { Name := "NOT".toList, Version := "1".toList }) := by
  refine ⟨by rfl, by decide, by decide, by rfl⟩

/-- C5, amended: absence with the spellings the code tests. For every header set in
which Sec-CH-UA is missing, is the empty string, or splits on the comma into tokens each
of which is whitespace-only or contains Not, not, Brand or brand, GetBrand returns
absent (nil). -/
theorem GetBrand_absent (isPrint : Char → Bool) (headers : Header)
    (h : headers SecCHUA = [] ∨ headers.Get SecCHUA = [] ∨
      ∀ t ∈ Split (headers.Get SecCHUA) ",".toList,
        (∀ c ∈ t, isSpace c = true) ∨ isDecoy t = true) :
    GetBrand isPrint headers = .ok none := by
  have hall : ∀ t ∈ Split (headers.Get SecCHUA) ",".toList,
      (∀ c ∈ t, isSpace c = true) ∨ isDecoy t = true := by
    rcases h with h | h | h
    · have hg : headers.Get SecCHUA = [] := by unfold Header.Get; rw [h]
      rw [hg]
      intro t ht
      have : t = [] := by simpa [Split, splitGo] using ht
      left; rw [this]; simp
    · rw [h]
      intro t ht
      have : t = [] := by simpa [Split, splitGo] using ht
      left; rw [this]; simp
    · exact h
  apply GetBrand_of_scan_none isPrint headers _ rfl
  apply scan_all_skipped
  intro t ht
  rcases hall t ht with h1 | h1
  · exact Or.inl (TrimSpace_of_all_space t h1)
  · exact Or.inr (Or.inl h1)

theorem GetBrand_absent_witness :
    GetBrand isPrintASCII (single SecCHUA (quoted "(Not(A:Brand".toList "8".toList ++
      ", ".toList)) = .ok none :=
  GetBrand_absent isPrintASCII _ (Or.inr (Or.inr (by decide)))

/-- C6: on the Sec-CH-UA value `Opera` the loop selects the token `Opera`, which has no
separator, and GetBrand does not return nil: it panics with an index out of range. -/
theorem GetBrand_missing_separator_panics :
    selected (single SecCHUA "Opera".toList) = some (0, "Opera".toList) ∧
      Split "Opera".toList ";v=".toList = ["Opera".toList] ∧
      GetBrand isPrintASCII (single SecCHUA "Opera".toList) = .error .indexOutOfRange := by
  refine ⟨by rfl, by rfl, by rfl⟩

/-- C7 as stated fails: on the entry whose name is wrapped in two layers of double quotes
and whose version is 81 in one layer, the returned Name is Opera without any quote,
not Opera in one pair of quotes. -/
theorem single_layer_counterexample :
    GetBrand isPrintASCII (single SecCHUA (entry 2 2 1 1 "Opera".toList "81".toList))
        = .ok (some { Name := "Opera".toList, Version := "81".toList }) ∧
      GetBrand isPrintASCII (single SecCHUA (entry 2 2 1 1 "Opera".toList "81".toList))
        ≠ .ok (some { Name := wrapped 1 1 "Opera".toList, Version := "81".toList }) := by
  have h : GetBrand isPrintASCII (single SecCHUA (entry 2 2 1 1 "Opera".toList "81".toList))
      = .ok (some { Name := "Opera".toList, Version := "81".toList }) := by rfl
  refine ⟨h, ?_⟩
  rw [h]
  decide

/-- C7, amended: the brand parser removes every layer of surrounding double quotes. For
every clean name n and version v, wrapped in any numbers a, b, c, d of leading and
trailing double quotes, each part independently, the parser returns Name n and Version v
without quotes; so the name wrapped in two layers comes back without its inner layer. -/
theorem headerValueToBrand_strips_all_quotes (isPrint : Char → Bool) (a b c d : Nat)
    (n v : Str) (hn : Clean isPrint n) (hv : Clean isPrint v) :
    headerValueToBrand isPrint (wrapped a b n ++ ";v=".toList ++ wrapped c d v)
      = .ok { Name := n, Version := v } :=
  headerValueToBrand_entry isPrint a b c d n v hn hv

theorem headerValueToBrand_strips_all_quotes_witness :
    headerValueToBrand isPrintASCII
        (wrapped 2 2 "Opera".toList ++ ";v=".toList ++ wrapped 1 1 "81".toList)
      = .ok { Name := "Opera".toList, Version := "81".toList } :=
  headerValueToBrand_strips_all_quotes isPrintASCII 2 2 1 1 "Opera".toList "81".toList
    ⟨by decide, by decide, by decide, by decide, by decide⟩
    ⟨by decide, by decide, by decide, by decide, by decide⟩

/-! ## Claims on the single-field accessors -/

/-- C8: IsMobile is a strict literal test. For every header set, IsMobile returns true if
and only if the raw Sec-CH-UA-Mobile value is exactly the two-character string ?1; a
missing header gives false, and so do the values ?0, ?1 with a leading or a trailing
space, and ?1 followed by a control character. -/
theorem IsMobile_iff (headers : Header) :
    (IsMobile headers = true ↔ headers.Get SecCHUAMobile = ['?', '1']) ∧
      (headers SecCHUAMobile = [] → IsMobile headers = false) ∧
      IsMobile (single SecCHUAMobile "?0".toList) = false ∧
      IsMobile (single SecCHUAMobile " ?1".toList) = false ∧
      IsMobile (single SecCHUAMobile "?1 ".toList) = false ∧
      IsMobile (single SecCHUAMobile ['?', '1', Char.ofNat 0]) = false := by
  refine ⟨?_, ?_, by rfl, by rfl, by rfl, by rfl⟩
  · unfold IsMobile headerBoolTrue
    constructor
    · intro h
      have := eq_of_beq h
      rw [← this]; rfl
    · intro h
      rw [h]; rfl
  · intro h
    unfold IsMobile Header.Get
    rw [h]; rfl

theorem IsMobile_iff_witness :
    IsMobile (single SecCHUAMobile "?1".toList) = true ∧
      IsMobile (single SecCHUA "?1".toList) = false :=
  ⟨(IsMobile_iff (single SecCHUAMobile "?1".toList)).1.mpr (by rfl),
    (IsMobile_iff (single SecCHUA "?1".toList)).2.1 (by rfl)⟩

theorem Sanitized_strip (isPrint : Char → Bool) (raw : Str) :
    Sanitized isPrint raw (StripNonPrintable isPrint raw) ∧
      ((∀ c ∈ raw, isPrint c = true) → StripNonPrintable isPrint raw = raw) := by
  unfold StripNonPrintable
  refine ⟨⟨List.filter_sublist raw, ?_, ?_⟩, ?_⟩
  · intro c hc
    exact (List.mem_filter.mp hc).2
  · intro c hc
    rw [List.count_filter hc]
  · intro h
    exact List.filter_eq_self.mpr h

/-- C9: the plain string accessors only sanitize. For every header set, GetArch,
GetBitness, GetPlatform, GetPlatformVersion and GetColorScheme each return the raw value
of their own header with exactly the non-printable characters removed and the rest in
the original order; a value made only of printable characters is returned unchanged. -/
theorem plain_accessors_sanitize (isPrint : Char → Bool) (headers : Header)
    (p : ((Char → Bool) → Header → Str) × String) (hp : p ∈ plainAccessors) :
    Sanitized isPrint (headers.Get p.2) (p.1 isPrint headers) ∧
      ((∀ c ∈ headers.Get p.2, isPrint c = true) → p.1 isPrint headers = headers.Get p.2) := by
  simp only [plainAccessors, List.mem_cons, List.mem_singleton, List.not_mem_nil,
    or_false] at hp
  rcases hp with h | h | h | h | h <;> subst h <;> exact Sanitized_strip isPrint _

theorem plain_accessors_sanitize_witness :
    Sanitized isPrintASCII "Chrome OS".toList
        (GetPlatform isPrintASCII (single SecCHUAPlatform "Chrome OS".toList)) ∧
      ((∀ c ∈ "Chrome OS".toList, isPrintASCII c = true) →
        GetPlatform isPrintASCII (single SecCHUAPlatform "Chrome OS".toList)
          = "Chrome OS".toList) :=
  plain_accessors_sanitize isPrintASCII (single SecCHUAPlatform "Chrome OS".toList)
    (GetPlatform, SecCHUAPlatform) (by simp [plainAccessors])

/-- C10: graceful degradation of the string accessors. For every header set in which the
header of an accessor (GetArch, GetBitness, GetModel, GetPlatform, GetPlatformVersion,
GetColorScheme) is missing, empty, or made only of non-printable characters, the
accessor returns the empty string. -/
theorem string_accessors_degrade (isPrint : Char → Bool) (headers : Header)
    (p : ((Char → Bool) → Header → Str) × String) (hp : p ∈ stringAccessors)
    (h : headers p.2 = [] ∨ headers.Get p.2 = [] ∨
      ∀ c ∈ headers.Get p.2, isPrint c = false) :
    p.1 isPrint headers = [] := by
  have hall : ∀ c ∈ headers.Get p.2, isPrint c = false := by
    rcases h with h | h | h
    · have hg : headers.Get p.2 = [] := by unfold Header.Get; rw [h]
      rw [hg]; simp
    · rw [h]; simp
    · exact h
  have hstrip : StripNonPrintable isPrint (headers.Get p.2) = [] := by
    unfold StripNonPrintable
    rw [List.filter_eq_nil_iff]
    intro c hc
    simp [hall c hc]
  simp only [stringAccessors, plainAccessors, List.mem_cons, List.mem_singleton,
    List.not_mem_nil, or_false] at hp
  rcases hp with h | h | h | h | h | h <;> subst h
  · show Trim (StripNonPrintable isPrint (headers.Get SecCHUAModel)) [dq] = []
    rw [hstrip]; rfl
  all_goals exact hstrip

theorem string_accessors_degrade_witness :
    GetModel isPrintASCII (single SecCHUAModel [Char.ofNat 7, Char.ofNat 0]) = [] :=
  string_accessors_degrade isPrintASCII (single SecCHUAModel [Char.ofNat 7, Char.ofNat 0])
    (GetModel, SecCHUAModel) (by simp [stringAccessors])
    (Or.inr (Or.inr (by decide)))

/-! ## More on trimming and splitting -/

theorem head_dropWhile (f : Char → Bool) (s : Str) (c : Char)
    (h : (s.dropWhile f).head? = some c) : f c = false := by
  induction s with
  | nil => simp at h
  | cons x xs ih =>
    by_cases hx : f x = true
    · rw [List.dropWhile_cons_of_pos hx] at h; exact ih h
    · rw [List.dropWhile_cons_of_neg hx] at h
      simp only [List.head?_cons, Option.some.injEq] at h
      rw [← h]; simpa using hx

/-- The result of a trim neither starts nor ends with a trimmed code point. -/
theorem NoEdge_TrimFunc (f : Char → Bool) (s : Str) : NoEdge f (TrimFunc s f) := by
  unfold TrimFunc
  constructor
  · intro c hc
    have hsuf : (s.dropWhile f).reverse.dropWhile f <:+ (s.dropWhile f).reverse :=
      List.dropWhile_suffix f
    have hpre : ((s.dropWhile f).reverse.dropWhile f).reverse <+: s.dropWhile f := by
      have := List.reverse_prefix.mpr hsuf
      simpa using this
    obtain ⟨t, ht⟩ := hpre
    cases hr : ((s.dropWhile f).reverse.dropWhile f).reverse with
    | nil => rw [hr] at hc; simp at hc
    | cons x xs =>
      rw [hr] at hc ht
      simp only [List.head?_cons, Option.some.injEq] at hc
      apply head_dropWhile f s c
      rw [← ht, ← hc]; rfl
  · intro c hc
    rw [List.getLast?_reverse] at hc
    exact head_dropWhile f _ c hc

/-- A string is its trim between two runs of trimmed code points. -/
theorem TrimFunc_decomp (f : Char → Bool) (s : Str) :
    ∃ pre post : Str, (∀ c ∈ pre, f c = true) ∧ (∀ c ∈ post, f c = true) ∧
      s = pre ++ TrimFunc s f ++ post := by
  refine ⟨s.takeWhile f, ((s.dropWhile f).reverse.takeWhile f).reverse,
    fun c hc => List.mem_takeWhile_imp hc,
    fun c hc => List.mem_takeWhile_imp (List.mem_reverse.mp hc), ?_⟩
  unfold TrimFunc
  have h1 : ((s.dropWhile f).reverse.dropWhile f).reverse
      ++ ((s.dropWhile f).reverse.takeWhile f).reverse = s.dropWhile f := by
    rw [← List.reverse_append, List.takeWhile_append_dropWhile, List.reverse_reverse]
  rw [List.append_assoc, h1, List.takeWhile_append_dropWhile]

theorem mem_of_sub (s t : Str) (hst : s <:+: t) (c : Char) (hc : c ∈ s) : c ∈ t := by
  obtain ⟨l, r, h⟩ := hst
  rw [← h]; simp [hc]

theorem isDecoy_false_of_sub (s t : Str) (hst : s <:+: t) (h : isDecoy t = false) :
    isDecoy s = false := by
  unfold isDecoy at h ⊢
  simp only [Bool.or_eq_false_iff] at h ⊢
  exact ⟨⟨⟨Contains_false_of_sub s t _ hst h.1.1.1, Contains_false_of_sub s t _ hst h.1.1.2⟩,
    Contains_false_of_sub s t _ hst h.1.2⟩, Contains_false_of_sub s t _ hst h.2⟩

/-- The first piece of a split is an initial segment of the string. -/
theorem splitGo_head (sep : Str) : ∀ s : Str, ∃ p ps, splitGo sep s 0 = p :: ps ∧ p <+: s := by
  intro s
  induction s with
  | nil => exact ⟨[], [], rfl, List.prefix_refl _⟩
  | cons c cs ih =>
    obtain ⟨p, ps, h1, h2⟩ := ih
    by_cases hp : sep.isPrefixOf (c :: cs) = true
    · exact ⟨[], _, by rw [splitGo, if_pos hp], List.nil_prefix⟩
    · refine ⟨c :: p, ps, ?_, ?_⟩
      · rw [splitGo, if_neg hp, h1]
      · exact List.cons_prefix_cons.mpr ⟨rfl, h2⟩

/-- What a returned Brand is made of: the selected token and its first two pieces. -/
theorem GetBrand_some (isPrint : Char → Bool) (headers : Header) (b : Brand)
    (h : GetBrand isPrint headers = .ok (some b)) :
    ∃ (j : Nat) (val d0 d1 : Str) (rest : List Str), selected headers = some (j, val) ∧
      Split val ";v=".toList = d0 :: d1 :: rest ∧
      b.Name = TrimSpace (StripNonPrintable isPrint (Trim d0 [dq])) ∧
      b.Version = TrimSpace (StripNonPrintable isPrint (Trim d1 [dq])) := by
  unfold GetBrand at h
  cases hsel : selected headers with
  | none => rw [hsel] at h; simp at h
  | some p =>
    obtain ⟨j, val⟩ := p
    rw [hsel] at h
    simp only at h
    unfold headerValueToBrand at h
    cases hs : Split val ";v=".toList with
    | nil => rw [hs] at h; simp [Except.map] at h
    | cons d0 t =>
      cases t with
      | nil => rw [hs] at h; simp [Except.map] at h
      | cons d1 rest =>
        rw [hs] at h
        simp only [Except.map, Except.ok.injEq, Option.some.injEq] at h
        exact ⟨j, val, d0, d1, rest, rfl, hs, by rw [← h], by rw [← h]⟩

/-! ## Claims on `GetModel` and on the sanitizer -/

theorem strip_wrapped (isPrint : Char → Bool) (a b : Nat) (s : Str)
    (hs : ∀ c ∈ s, isPrint c = true) :
    ∃ a1 b1, StripNonPrintable isPrint (wrapped a b s) = wrapped a1 b1 s := by
  unfold StripNonPrintable wrapped
  rw [List.filter_append, List.filter_append, List.filter_eq_self.mpr hs]
  by_cases hq : isPrint dq = true
  · refine ⟨a, b, ?_⟩
    rw [List.filter_eq_self.mpr (fun c hc => by rw [List.eq_of_mem_replicate hc]; exact hq),
      List.filter_eq_self.mpr (fun c hc => by rw [List.eq_of_mem_replicate hc]; exact hq)]
  · refine ⟨0, 0, ?_⟩
    rw [List.filter_eq_nil_iff.mpr (fun c hc => by rw [List.eq_of_mem_replicate hc]; exact hq),
      List.filter_eq_nil_iff.mpr (fun c hc => by rw [List.eq_of_mem_replicate hc]; exact hq)]
    rfl

/-- C11 as stated fails: on the printable value Pixel 3 wrapped in two layers of double
quotes, sanitizing changes nothing, dropping one leading and one trailing quote leaves
Pixel 3 in one layer, yet GetModel returns Pixel 3 without any quote. -/
theorem GetModel_single_layer_counterexample :
    StripNonPrintable isPrintASCII (wrapped 2 2 "Pixel 3".toList)
        = wrapped 2 2 "Pixel 3".toList ∧
      stripOneLayer (StripNonPrintable isPrintASCII (wrapped 2 2 "Pixel 3".toList))
        = wrapped 1 1 "Pixel 3".toList ∧
      GetModel isPrintASCII (single SecCHUAModel (wrapped 2 2 "Pixel 3".toList))
        = "Pixel 3".toList ∧
      GetModel isPrintASCII (single SecCHUAModel (wrapped 2 2 "Pixel 3".toList))
        ≠ stripOneLayer (StripNonPrintable isPrintASCII (wrapped 2 2 "Pixel 3".toList)) := by
  refine ⟨by rfl, by rfl, by rfl, by decide⟩

/-- C11, amended: GetModel returns the sanitized Sec-CH-UA-Model value with every leading
and every trailing double quote removed. For every raw value, the sanitized value is the
result of GetModel between two runs of double quotes, and the result neither starts nor
ends with a double quote; so a printable value s without a double quote at either end,
wrapped in any number of layers, gives s: Pixel 3 in quotes gives Pixel 3, an unquoted
value is returned unchanged, and a value in two layers loses both. -/
theorem GetModel_strips_all_quotes (isPrint : Char → Bool) (headers : Header) :
    (∃ a b, StripNonPrintable isPrint (headers.Get SecCHUAModel)
        = wrapped a b (GetModel isPrint headers)) ∧
      NoEdge (fun c => [dq].contains c) (GetModel isPrint headers) ∧
      ∀ (a b : Nat) (s : Str), (∀ c ∈ s, isPrint c = true) →
        NoEdge (fun c => [dq].contains c) s → headers.Get SecCHUAModel = wrapped a b s →
        GetModel isPrint headers = s := by
  refine ⟨?_, NoEdge_TrimFunc _ _, ?_⟩
  · obtain ⟨pre, post, h1, h2, h3⟩ := TrimFunc_decomp (fun c => [dq].contains c)
      (StripNonPrintable isPrint (headers.Get SecCHUAModel))
    have hrep : ∀ l : Str, (∀ c ∈ l, ([dq] : Str).contains c = true) →
        l = List.replicate l.length dq := by
      intro l hl
      apply List.eq_replicate_iff.mpr
      refine ⟨rfl, fun c hc => ?_⟩
      have := hl c hc
      simpa using this
    refine ⟨pre.length, post.length, ?_⟩
    unfold GetModel Trim wrapped
    rw [← hrep pre h1, ← hrep post h2]
    exact h3
  · intro a b s hs he hraw
    obtain ⟨a1, b1, h⟩ := strip_wrapped isPrint a b s hs
    unfold GetModel
    rw [hraw, h]
    exact Trim_wrapped a1 b1 s he

theorem GetModel_strips_all_quotes_witness :
    GetModel isPrintASCII (single SecCHUAModel (wrapped 1 1 "Pixel 3".toList))
      = "Pixel 3".toList :=
  (GetModel_strips_all_quotes isPrintASCII
    (single SecCHUAModel (wrapped 1 1 "Pixel 3".toList))).2.2 1 1 "Pixel 3".toList
    (by decide) (by decide) (by rfl)

/-- C12: sanitization is idempotent. For every string x, removing the non-printable
characters from the sanitized x gives the sanitized x again. -/
theorem StripNonPrintable_idempotent (isPrint : Char → Bool) (x : Str) :
    StripNonPrintable isPrint (StripNonPrintable isPrint x) = StripNonPrintable isPrint x := by
  unfold StripNonPrintable
  rw [List.filter_filter]
  congr 1
  funext c
  cases isPrint c <;> rfl

/-! ## Claims on the selection -/

/-- What the loop of `GetBrand` has seen when it selects a token. -/
theorem selected_spec (headers : Header) (j : Nat) (val : Str)
    (h : selected headers = some (j, val)) :
    ∃ pre t post, Split (headers.Get SecCHUA) ",".toList = pre ++ t :: post ∧
      j = pre.length ∧ val = TrimSpace t ∧ TrimSpace t ≠ [] ∧ isDecoy t = false ∧
      (hasChromium t = false ∨ (pre ++ t :: post).length ≤ 2) ∧
      ∀ p ∈ pre, Skipped (pre ++ t :: post).length p := by
  unfold selected at h
  obtain ⟨pre, t, post, h1, h2, h3, h4, h5, h6, h7⟩ := scan_some _ _ _ _ _ h
  refine ⟨pre, t, post, h1, by omega, h3, h4, h5, ?_, ?_⟩
  · rw [← h1]; exact h6
  · rw [← h1]; exact h7

theorem GetBrand_some_parse (isPrint : Char → Bool) (headers : Header) (b : Brand)
    (h : GetBrand isPrint headers = .ok (some b)) :
    ∃ j val, selected headers = some (j, val) ∧ headerValueToBrand isPrint val = .ok b := by
  unfold GetBrand at h
  cases hsel : selected headers with
  | none => rw [hsel] at h; simp at h
  | some p =>
    obtain ⟨j, val⟩ := p
    rw [hsel] at h
    simp only at h
    refine ⟨j, val, rfl, ?_⟩
    cases hp : headerValueToBrand isPrint val with
    | error e => rw [hp] at h; simp [Except.map] at h
    | ok b1 =>
      rw [hp] at h
      simp only [Except.map, Except.ok.injEq, Option.some.injEq] at h
      rw [h]

theorem Skipped_anyCase (total : Nat) (p : Str) (h : Skipped total p) :
    SkippedAnyCase total p := by
  rcases h with h | h | h
  · exact Or.inl h
  · right; left
    by_contra hn
    have := isDecoy_of_anyCase p (by simpa using hn)
    rw [this] at h
    exact absurd h (by simp)
  · right; right
    refine ⟨?_, h.2⟩
    by_contra hn
    have := hasChromium_of_anyCase p (by simpa using hn)
    rw [this] at h
    exact absurd h.1 (by simp)

/-- C13 as stated fails in its last clause: `Chromium;v=96,Opera;v=81,Not;v=1` returns the
Brand parsed from its second token, Opera and 81; the list `Chromium;v=96,Opera;v=81` has
the same tokens up to that one and differs only after it, yet it returns Chromium
and 96. -/
theorem later_token_counterexample :
    Split "Chromium;v=96,Opera;v=81,Not;v=1".toList ",".toList
        = ["Chromium;v=96".toList] ++ "Opera;v=81".toList :: ["Not;v=1".toList] ∧
      selected (single SecCHUA "Chromium;v=96,Opera;v=81,Not;v=1".toList)
        = some (1, "Opera;v=81".toList) ∧
      GetBrand isPrintASCII (single SecCHUA "Chromium;v=96,Opera;v=81,Not;v=1".toList)
        = .ok (some { Name := "Opera".toList, Version := "81".toList }) ∧
      Split "Chromium;v=96,Opera;v=81".toList ",".toList
        = ["Chromium;v=96".toList] ++ "Opera;v=81".toList :: [] ∧
      GetBrand isPrintASCII (single SecCHUA "Chromium;v=96,Opera;v=81".toList)
        = .ok (some { Name := "Chromium".toList, Version := "96".toList }) ∧
      GetBrand isPrintASCII (single SecCHUA "Chromium;v=96,Opera;v=81".toList)
        ≠ GetBrand isPrintASCII (single SecCHUA "Chromium;v=96,Opera;v=81,Not;v=1".toList) := by
  refine ⟨by rfl, by rfl, by rfl, by rfl, by rfl, by decide⟩

/-- C13, amended: first substantive entry, in list order. For every Sec-CH-UA value for
which GetBrand returns a Brand, that Brand is parsed from a token t that is non-empty
after trimming, and every token before t is empty after trimming, or contains not or
brand, or contains chromium while the list has more than two tokens; the tokens after t
influence the result only through the more-than-two test: every list with the same
tokens up to t and on the same side of that test gives the same Brand. -/
theorem GetBrand_first_substantive (isPrint : Char → Bool) (headers : Header) (b : Brand)
    (h : GetBrand isPrint headers = .ok (some b)) : FirstSubstantive isPrint headers b := by
  obtain ⟨j, val, hsel, hparse⟩ := GetBrand_some_parse isPrint headers b h
  obtain ⟨pre, t, post, h1, -, h3, h4, h5, h6, h7⟩ := selected_spec headers j val hsel
  refine ⟨pre, t, post, h1, h4, by rw [← h3]; exact hparse, h7,
    fun p hp => Skipped_anyCase _ p (h7 p hp), ?_⟩
  intro headers2 post2 hs2 hiff
  have hskip : ∀ p ∈ pre, TrimSpace p = [] ∨ isDecoy p = true ∨
      (hasChromium p = true ∧ 2 < (pre ++ t :: post2).length) := by
    intro p hp
    rcases h7 p hp with g | g | g
    · exact Or.inl g
    · exact Or.inr (Or.inl g)
    · exact Or.inr (Or.inr ⟨g.1, hiff.mpr g.2⟩)
  have h62 : hasChromium t = false ∨ (pre ++ t :: post2).length ≤ 2 := by
    rcases h6 with g | g
    · exact Or.inl g
    · right
      by_contra hn
      have := hiff.mp (by omega)
      omega
  have hscan : scan (pre ++ t :: post2).length 0 (pre ++ t :: post2)
      = some (0 + pre.length, TrimSpace t) := by
    rw [scan_append _ pre _ hskip 0, scan_select _ _ t post2 h4 h5 h62]
  rw [GetBrand_of_scan isPrint headers2 _ _ _ hs2 hscan, ← h3, hparse]
  rfl

theorem GetBrand_first_substantive_witness :
    FirstSubstantive isPrintASCII
      (single SecCHUA "Chromium;v=96,Opera;v=81,Not;v=1".toList)
      { Name := "Opera".toList, Version := "81".toList } :=
  GetBrand_first_substantive isPrintASCII _ _ (by rfl)

/-- C14: the Chromium skip is decided by the original token count, empty tokens included.
For every Sec-CH-UA value that splits on the comma into more than two pieces, a token
containing Chromium or chromium is never the token GetBrand selects, and a returned Brand
is parsed from a token at another position without these spellings; so the quoted
Chromium entry followed by a quoted decoy and a trailing comma, three pieces of which the
last is empty, yields absent. -/
theorem chromium_skipped_by_count (isPrint : Char → Bool) (headers : Header)
    (hlen : 2 < (Split (headers.Get SecCHUA) ",".toList).length) (i : Nat) (tok : Str)
    (hi : (Split (headers.Get SecCHUA) ",".toList)[i]? = some tok)
    (hc : hasChromium tok = true) :
    (∀ val, selected headers ≠ some (i, val)) ∧
      (∀ b, GetBrand isPrint headers = .ok (some b) →
        ∃ j t, j ≠ i ∧ (Split (headers.Get SecCHUA) ",".toList)[j]? = some t ∧
          hasChromium t = false ∧ selected headers = some (j, TrimSpace t) ∧
          headerValueToBrand isPrint (TrimSpace t) = .ok b) ∧
      Split (quoted "Chromium".toList "96".toList ++ ", ".toList ++
          quoted "Not A;Brand".toList "99".toList ++ ",".toList) ",".toList
        = [quoted "Chromium".toList "96".toList,
            " ".toList ++ quoted "Not A;Brand".toList "99".toList, []] ∧
      GetBrand isPrint (single SecCHUA (quoted "Chromium".toList "96".toList ++ ", ".toList ++
          quoted "Not A;Brand".toList "99".toList ++ ",".toList)) = .ok none := by
  have key : ∀ j val, selected headers = some (j, val) →
      ∃ t, j ≠ i ∧ (Split (headers.Get SecCHUA) ",".toList)[j]? = some t ∧
        hasChromium t = false ∧ val = TrimSpace t := by
    intro j val hsel
    obtain ⟨pre, t, post, h1, h2, h3, -, -, h6, -⟩ := selected_spec headers j val hsel
    have hj : (Split (headers.Get SecCHUA) ",".toList)[j]? = some t := by
      rw [h1, h2, List.getElem?_append_right (le_refl _)]; simp
    have hct : hasChromium t = false := by
      rcases h6 with g | g
      · exact g
      · rw [h1] at hlen; omega
    refine ⟨t, ?_, hj, hct, h3⟩
    intro hji
    rw [hji, hi] at hj
    have : tok = t := by simpa using hj
    rw [this, hct] at hc
    exact absurd hc (by simp)
  refine ⟨?_, ?_, by rfl, ?_⟩
  · intro val hsel
    obtain ⟨t, hne, -⟩ := key i val hsel
    exact hne rfl
  · intro b hb
    obtain ⟨j, val, hsel, hparse⟩ := GetBrand_some_parse isPrint headers b hb
    obtain ⟨t, hne, hj, hct, hval⟩ := key j val hsel
    exact ⟨j, t, hne, hj, hct, by rw [hsel, hval], by rw [← hval]; exact hparse⟩
  · exact GetBrand_of_scan_none isPrint _ _ rfl (by rfl)

theorem chromium_skipped_by_count_witness :
    (∀ val, selected (single SecCHUA "Chromium;v=96,Not;v=1,".toList) ≠ some (0, val)) ∧
      GetBrand isPrintASCII (single SecCHUA "Chromium;v=96,Not;v=1,".toList) = .ok none :=
  ⟨(chromium_skipped_by_count isPrintASCII (single SecCHUA "Chromium;v=96,Not;v=1,".toList)
      (by decide) 0 "Chromium;v=96".toList (by rfl) (by decide)).1, by rfl⟩

/-! ## Claims on the returned fields -/

theorem sanitized_trimmed (isPrint : Char → Bool) (x : Str) :
    (∀ c ∈ TrimSpace (StripNonPrintable isPrint x), isPrint c = true) ∧
      NoEdge isSpace (TrimSpace (StripNonPrintable isPrint x)) := by
  refine ⟨?_, NoEdge_TrimFunc _ _⟩
  intro c hc
  have h1 := mem_of_sub _ _ (TrimFunc_sub isSpace (StripNonPrintable isPrint x)) c hc
  unfold StripNonPrintable at h1
  exact (List.mem_filter.mp h1).2

/-- C15: returned fields are clean. For every header set for which GetBrand returns a
Brand, both Name and Version contain no non-printable character and have no leading or
trailing whitespace. -/
theorem GetBrand_fields_clean (isPrint : Char → Bool) (headers : Header) (b : Brand)
    (h : GetBrand isPrint headers = .ok (some b)) :
    (∀ c ∈ b.Name, isPrint c = true) ∧ NoEdge isSpace b.Name ∧
      (∀ c ∈ b.Version, isPrint c = true) ∧ NoEdge isSpace b.Version := by
  obtain ⟨j, val, d0, d1, rest, -, -, hn, hv⟩ := GetBrand_some isPrint headers b h
  rw [hn, hv]
  exact ⟨(sanitized_trimmed isPrint _).1, (sanitized_trimmed isPrint _).2,
    (sanitized_trimmed isPrint _).1, (sanitized_trimmed isPrint _).2⟩

theorem GetBrand_fields_clean_witness :
    GetBrand isPrintASCII (single SecCHUA
        (wrapped 1 1 [' ', 'O', 'p', Char.ofNat 7, 'e', 'r', 'a', ' '] ++ ";v=".toList ++
          wrapped 1 1 ['8', '1', Char.ofNat 9]))
        = .ok (some { Name := "Opera".toList, Version := "81".toList }) ∧
      (∀ c ∈ "Opera".toList, isPrintASCII c = true) ∧ NoEdge isSpace "Opera".toList ∧
      (∀ c ∈ "81".toList, isPrintASCII c = true) ∧ NoEdge isSpace "81".toList :=
  ⟨by rfl, GetBrand_fields_clean isPrintASCII (single SecCHUA
      (wrapped 1 1 [' ', 'O', 'p', Char.ofNat 7, 'e', 'r', 'a', ' '] ++ ";v=".toList ++
        wrapped 1 1 ['8', '1', Char.ofNat 9]))
      { Name := "Opera".toList, Version := "81".toList } (by rfl)⟩

/-- C16 as stated fails: the token N, NUL, o, t, `;v=1` contains none of the four
spellings, so the loop selects it; the sanitizer then removes the control character and
the returned Name is Not. -/
theorem name_decoy_counterexample :
    isDecoy (['N', Char.ofNat 0, 'o', 't'] ++ ";v=1".toList) = false ∧
      selected (single SecCHUA (['N', Char.ofNat 0, 'o', 't'] ++ ";v=1".toList))
        = some (0, ['N', Char.ofNat 0, 'o', 't'] ++ ";v=1".toList) ∧
      GetBrand isPrintASCII (single SecCHUA (['N', Char.ofNat 0, 'o', 't'] ++ ";v=1".toList))
        = .ok (some { Name := "Not".toList, Version := "1".toList }) ∧
      isDecoy "Not".toList = true := by
  refine ⟨by decide, by rfl, by rfl, by decide⟩

/-- C16, amended: the decoy filter holds of the output when sanitizing removes nothing
from the name. For every Sec-CH-UA value for which GetBrand returns a Brand and whose
selected token has only printable characters before its first separator, the Name of the
Brand contains none of the substrings Not, not, Brand, brand. -/
theorem GetBrand_name_no_decoy (isPrint : Char → Bool) (headers : Header) (b : Brand)
    (h : GetBrand isPrint headers = .ok (some b))
    (hprint : ∀ j val d0 rest, selected headers = some (j, val) →
      Split val ";v=".toList = d0 :: rest → ∀ c ∈ d0, isPrint c = true) :
    isDecoy b.Name = false := by
  obtain ⟨j, val, d0, d1, rest, hsel, hs, hn, -⟩ := GetBrand_some isPrint headers b h
  obtain ⟨pre, t, post, -, -, h3, -, h5, -, -⟩ := selected_spec headers j val hsel
  have hval : isDecoy val = false := by rw [h3, isDecoy_TrimSpace]; exact h5
  have hd0 : d0 <:+: val := by
    obtain ⟨p, ps, hp1, hp2⟩ := splitGo_head ";v=".toList val
    unfold Split at hs
    rw [hs] at hp1
    simp only [List.cons.injEq] at hp1
    rw [hp1.1]
    exact hp2.isInfix
  have htrim : Trim d0 [dq] <:+: d0 := TrimFunc_sub _ _
  have hstrip : StripNonPrintable isPrint (Trim d0 [dq]) = Trim d0 [dq] := by
    unfold StripNonPrintable
    exact List.filter_eq_self.mpr
      (fun c hc => hprint j val d0 (d1 :: rest) hsel hs c (mem_of_sub _ _ htrim c hc))
  rw [hn, hstrip]
  exact isDecoy_false_of_sub _ val
    (((TrimFunc_sub isSpace _).trans htrim).trans hd0) hval

theorem GetBrand_name_no_decoy_witness :
    isDecoy "Opera".toList = false :=
  GetBrand_name_no_decoy isPrintASCII (single SecCHUA "Opera;v=81".toList)
    { Name := "Opera".toList, Version := "81".toList } (by rfl)
    (by
      intro j val d0 rest hsel hs
      have h0 : selected (single SecCHUA "Opera;v=81".toList) = some (0, "Opera;v=81".toList) :=
        by rfl
      rw [h0] at hsel
      simp only [Option.some.injEq, Prod.mk.injEq] at hsel
      rw [← hsel.2] at hs
      have h1 : Split "Opera;v=81".toList ";v=".toList = ["Opera".toList, "81".toList] := by rfl
      rw [h1] at hs
      simp only [List.cons.injEq] at hs
      rw [← hs.1]
      decide)

end ch
